import Mathlib

/-!
Verification of the pronunciation-matching and spaced-repetition core of the
aussie-english-practice repository.

The source functions `normalizeString`, `calculateSimilarity` and
`calculateMatch` (the utility part of the `useVoicePractice` hook) are
embedded as Lean functions over `List Char`.  JavaScript strings become
`List Char`; the JS number results of `calculateSimilarity` (which are
always integers here) become `ℤ`.  `Math.round` on the nonnegative values
appearing here rounds half away from zero, i.e. half up; the embedding uses
exact integer arithmetic for the executable definition and proves it equal
to the rational-number formula `⌊(1 - d / L) * 100 + 1 / 2⌋`.

The spaced-repetition hook (`useSlangProgress`) is not part of the given
sources (only its caller is), so it is modelled from the spec, as marked on
the individual definitions.
-/

namespace AussiePractice

/-! ## StringNormalizer -/

/-- The code points matched by the JavaScript regex class `\s` (and removed
at the ends by `String.prototype.trim`). -/
def wsCodes : List Nat :=
  [9, 10, 11, 12, 13, 32, 160, 5760,
   8192, 8193, 8194, 8195, 8196, 8197, 8198, 8199, 8200, 8201, 8202,
   8232, 8233, 8239, 8287, 12288, 65279]

/-- Whether a character is JS whitespace (`\s`). -/
def isWs (c : Char) : Bool := wsCodes.contains c.toNat

/-- Whether a character is a lowercase ASCII letter (`[a-z]`). -/
def isLowerAZ (c : Char) : Bool := decide (97 ≤ c.toNat ∧ c.toNat ≤ 122)

/-- Whether a character is an ASCII digit (`[0-9]`). -/
def isDigit09 (c : Char) : Bool := decide (48 ≤ c.toNat ∧ c.toNat ≤ 57)

/-- One character of `String.prototype.toLowerCase`, restricted to the
ASCII range: `A`–`Z` maps to `a`–`z`, everything else is unchanged.  (JS
applies the Unicode simple lowercase mapping; only the ASCII fragment is
relevant to the properties proved below, all of which are insensitive to
what the mapping does outside `A`–`Z`.) -/
def jsLowerChar (c : Char) : Char :=
  if 65 ≤ c.toNat ∧ c.toNat ≤ 90 then Char.ofNat (c.toNat + 32) else c

/-- `str.toLowerCase()`. -/
def jsToLower (l : List Char) : List Char := l.map jsLowerChar

/-- `str.trim()`: drop JS whitespace from both ends. -/
def jsTrim (l : List Char) : List Char :=
  (((l.dropWhile isWs).reverse.dropWhile isWs).reverse : List Char)

/-- `str.replace(/[^a-z0-9\s]/g, '')`: keep exactly the characters matching
`[a-z0-9\s]`. -/
def stripOther (l : List Char) : List Char :=
  l.filter fun c => isLowerAZ c || isDigit09 c || isWs c

/-- `str.replace(/\s+/g, ' ')`: replace every maximal run of JS whitespace
by a single space.  The single space is emitted at the last character of
each run. -/
def collapseWs : List Char → List Char
  | [] => []
  | [c] => if isWs c then [' '] else [c]
  | c :: d :: cs =>
      if isWs c then
        if isWs d then collapseWs (d :: cs) else ' ' :: collapseWs (d :: cs)
      else c :: collapseWs (d :: cs)

/-- `normalizeString` from the source:
`str.toLowerCase().trim().replace(/[^a-z0-9\s]/g, '').replace(/\s+/g, ' ')`. -/
def normalizeString (l : List Char) : List Char :=
  collapseWs (stripOther (jsTrim (jsToLower l)))

/-- The character set the spec asserts for normalized output: lowercase
ASCII letter (`a`–`z`, code points 97–122), decimal digit (`0`–`9`, code
points 48–57), or space. -/
def normOutChar (c : Char) : Prop :=
  (97 ≤ c.toNat ∧ c.toNat ≤ 122) ∨ (48 ≤ c.toNat ∧ c.toNat ≤ 57) ∨ c = ' '

instance (c : Char) : Decidable (normOutChar c) := by
  unfold normOutChar; infer_instance

/-! ## EditDistanceScorer: the edit distance

`levW` is the textbook insert/delete/substitute edit distance (unit costs),
defined by structural recursion.  The dynamic-programming matrix the source
builds is embedded separately below (`levDP`) and proved equal to `levW`. -/

/-- Substitution cost, as in the source: `str1[i-1] === str2[j-1] ? 0 : 1`. -/
def cost (x y : Char) : Nat := if x = y then 0 else 1

/-- Textbook insert/delete/substitute edit distance with unit costs. -/
def levW : List Char → List Char → Nat
  | [], b => b.length
  | a, [] => a.length
  | x :: a, y :: b =>
      min (levW a (y :: b) + 1) (min (levW (x :: a) b + 1) (levW a b + cost x y))
termination_by a b => (a.length, b.length)

theorem levW_nil_left (b : List Char) : levW [] b = b.length := by
  simp [levW]

theorem levW_nil_right (a : List Char) : levW a [] = a.length := by
  cases a <;> simp [levW]

theorem levW_cons_cons (x y : Char) (a b : List Char) :
    levW (x :: a) (y :: b) =
      min (levW a (y :: b) + 1) (min (levW (x :: a) b + 1) (levW a b + cost x y)) := by
  simp [levW]

theorem cost_comm (x y : Char) : cost x y = cost y x := by
  simp [cost, eq_comm]

/-- The edit distance is symmetric. -/
theorem levW_comm (a : List Char) : ∀ b, levW a b = levW b a := by
  induction a with
  | nil => intro b; rw [levW_nil_left, levW_nil_right]
  | cons x a iha =>
    intro b
    induction b with
    | nil => rw [levW_nil_left, levW_nil_right]
    | cons y b ihb =>
      rw [levW_cons_cons, levW_cons_cons, iha (y :: b), iha b, ihb, cost_comm]
      omega

/-- The edit distance is at most the larger length. -/
theorem levW_le_max (a : List Char) : ∀ b, levW a b ≤ max a.length b.length := by
  induction a with
  | nil => intro b; rw [levW_nil_left]; simp
  | cons x a iha =>
    intro b
    cases b with
    | nil => rw [levW_nil_right]; simp
    | cons y b =>
      rw [levW_cons_cons]
      have h := iha b
      have hc : cost x y ≤ 1 := by unfold cost; split <;> omega
      simp only [List.length_cons]
      omega

set_option maxHeartbeats 1000000 in
/-- The edit distance satisfies the same three-way recurrence when the two
strings are extended on the right (the form used by the source's
dynamic-programming matrix). -/
theorem levW_append (x y : Char) (a : List Char) :
    ∀ b, levW (a ++ [x]) (b ++ [y]) =
      min (levW a (b ++ [y]) + 1) (min (levW (a ++ [x]) b + 1) (levW a b + cost x y)) := by
  induction a with
  | nil =>
    intro b
    induction b with
    | nil => rw [List.nil_append, List.nil_append, levW_cons_cons]
    | cons b0 b' ihb =>
      simp only [List.nil_append, List.cons_append] at *
      rw [levW_cons_cons x b0, ihb, levW_cons_cons x b0 [] b']
      simp only [levW_nil_left, levW_nil_right, List.length_append, List.length_cons,
        List.length_nil]
      omega
  | cons x0 a' iha =>
    intro b
    induction b with
    | nil =>
      have h1 := iha []
      simp only [List.nil_append, List.cons_append] at *
      rw [levW_cons_cons x0 y, h1, levW_cons_cons x0 y a' []]
      simp only [levW_nil_left, levW_nil_right, List.length_append, List.length_cons,
        List.length_nil]
      omega
    | cons b0 b' ihb =>
      have h1 := iha (b0 :: b')
      have h3 := iha b'
      simp only [List.cons_append] at *
      rw [levW_cons_cons x0 b0, h1, ihb, h3,
        levW_cons_cons x0 b0 a' (b' ++ [y]), levW_cons_cons x0 b0 (a' ++ [x]) b',
        levW_cons_cons x0 b0 a' b']
      generalize levW a' (b0 :: (b' ++ [y])) = p1
      generalize levW (a' ++ [x]) (b0 :: b') = p2
      generalize levW a' (b0 :: b') = p3
      generalize levW (x0 :: a') (b' ++ [y]) = p4
      generalize levW (x0 :: (a' ++ [x])) b' = p5
      generalize levW (x0 :: a') b' = p6
      generalize levW a' (b' ++ [y]) = p7
      generalize levW (a' ++ [x]) b' = p8
      generalize levW a' b' = p9
      generalize cost x y = cxy
      generalize cost x0 b0 = cab
      apply le_antisymm <;>
        · simp only [le_min_iff, min_le_iff]
          omega

/-- The edit distance is invariant under reversing both strings. -/
theorem levW_reverse (a : List Char) : ∀ b, levW a.reverse b.reverse = levW a b := by
  induction a with
  | nil =>
    intro b
    simp [levW_nil_left]
  | cons x a' iha =>
    intro b
    induction b with
    | nil => simp [levW_nil_right]
    | cons y b' ihb =>
      have h1 : levW a'.reverse (b'.reverse ++ [y]) = levW a' (y :: b') := by
        rw [← List.reverse_cons]; exact iha (y :: b')
      have h2 : levW (a'.reverse ++ [x]) b'.reverse = levW (x :: a') b' := by
        rw [← List.reverse_cons]; exact ihb
      have h3 : levW a'.reverse b'.reverse = levW a' b' := iha b'
      rw [List.reverse_cons, List.reverse_cons, levW_append, h1, h2, h3, levW_cons_cons]

/-! ## EditDistanceScorer: the dynamic-programming matrix

The source fills a `(len1+1) × (len2+1)` matrix row by row:
`matrix[i][0] = i`, `matrix[0][j] = j`, and
`matrix[i][j] = min(matrix[i-1][j] + 1, matrix[i][j-1] + 1,
matrix[i-1][j-1] + cost)`.  Each row is a `List Nat`; `levRows` folds the
row update over the first string and the distance is the last entry of the
final row (`matrix[len1][len2]`). -/

/-- One matrix cell, in the source's order:
`Math.min(matrix[i-1][j] + 1, matrix[i][j-1] + 1, matrix[i-1][j-1] + cost)`. -/
def cell (x y : Char) (diag left up : Nat) : Nat :=
  min (up + 1) (min (left + 1) (diag + cost x y))

/-- Fill the remaining cells of row `i`, scanning the second string:
`prev` holds the entries `matrix[i-1][j..]`, `diag` is `matrix[i-1][j-1]`,
`left` is `matrix[i][j-1]`. -/
def levRowAux (x : Char) : List Char → List Nat → Nat → Nat → List Nat
  | [], _, _, _ => []
  | _ :: _, [], _, _ => []
  | y :: ys, up :: prevRest, diag, left =>
      cell x y diag left up :: levRowAux x ys prevRest up (cell x y diag left up)

/-- Row `i` of the matrix from row `i-1`: the first entry is `matrix[i][0] = i`. -/
def levRow (x : Char) (t : List Char) (prev : List Nat) (i : Nat) : List Nat :=
  match prev with
  | [] => []
  | d :: rest => i :: levRowAux x t rest d i

/-- Fold the row update over the first string (the outer `for` loop). -/
def levRows (t : List Char) : List Char → List Nat → Nat → List Nat
  | [], row, _ => row
  | x :: xs, row, i => levRows t xs (levRow x t row (i + 1)) (i + 1)

/-- `matrix[len1][len2]`: run the DP from row 0 (`[0, 1, ..., len2]`) and
take the last entry of the final row. -/
def levDP (s t : List Char) : Nat :=
  (levRows t s (List.range (t.length + 1)) 0).getLastD 0

/-- Abstract description of the cells of a matrix row strictly right of
column `|Q|`, for processed (reversed) prefix `P` of the first string:
entry `j` is `levW P (reverse of the first |Q|+j+1 chars of the second
string)`.  `Q` is the reversed consumed part of the second string and the
argument list is the remaining part. -/
def rowTail (P : List Char) : List Char → List Char → List Nat
  | _, [] => []
  | Q, y :: ys => levW P (y :: Q) :: rowTail P (y :: Q) ys

/-- A full row: the column-`|Q|` entry followed by the later ones. -/
def rowSpec (P Q t : List Char) : List Nat := levW P Q :: rowTail P Q t

theorem rowSpec_nil_eq_range' (t : List Char) :
    ∀ Q : List Char, rowSpec [] Q t = List.range' Q.length (t.length + 1) := by
  induction t with
  | nil =>
    intro Q
    simp [rowSpec, rowTail, levW_nil_left, List.range'_succ]
  | cons y ys ih =>
    intro Q
    have h := ih (y :: Q)
    simp only [rowSpec, rowTail, levW_nil_left, List.length_cons] at *
    rw [List.range'_succ, h]

theorem levRowAux_spec (x : Char) (P : List Char) :
    ∀ (t' Q : List Char),
      levRowAux x t' (rowTail P Q t') (levW P Q) (levW (x :: P) Q) = rowTail (x :: P) Q t' := by
  intro t'
  induction t' with
  | nil => intro Q; simp [rowTail, levRowAux]
  | cons y ys ih =>
    intro Q
    have hcell : cell x y (levW P Q) (levW (x :: P) Q) (levW P (y :: Q)) = levW (x :: P) (y :: Q) := by
      rw [levW_cons_cons, cell]
    simp only [rowTail, levRowAux, hcell]
    rw [ih (y :: Q)]

theorem levRow_spec (x : Char) (t P : List Char) :
    levRow x t (rowSpec P [] t) (P.length + 1) = rowSpec (x :: P) [] t := by
  have h0 : levW P [] = P.length := levW_nil_right P
  have h1 : levW (x :: P) [] = P.length + 1 := levW_nil_right (x :: P)
  have h2 := levRowAux_spec x P t []
  rw [h0, h1] at h2
  simp only [rowSpec, levRow]
  rw [h0, h1, h2]

theorem levRows_spec (t : List Char) :
    ∀ (s' P : List Char), levRows t s' (rowSpec P [] t) P.length = rowSpec (s'.reverse ++ P) [] t := by
  intro s'
  induction s' with
  | nil => intro P; simp [levRows]
  | cons x xs ih =>
    intro P
    have hrow := levRow_spec x t P
    have hrec := ih (x :: P)
    simp only [levRows, hrow]
    simp only [List.length_cons] at hrec
    rw [hrec, List.reverse_cons, List.append_assoc, List.singleton_append]

theorem rowSpec_getLastD (P : List Char) :
    ∀ (t Q : List Char) (d : Nat), (rowSpec P Q t).getLastD d = levW P (t.reverse ++ Q) := by
  intro t
  induction t with
  | nil => intro Q d; simp [rowSpec, rowTail]
  | cons y ys ih =>
    intro Q d
    have h := ih (y :: Q) (levW P Q)
    simp only [rowSpec, rowTail] at *
    rw [List.getLastD_cons, h, List.reverse_cons, List.append_assoc, List.singleton_append]

/-- The dynamic-programming matrix computes the edit distance of the two
reversed strings (cell `(i, j)` holds the distance between the reversed
length-`i` prefix and the reversed length-`j` prefix). -/
theorem levDP_eq_levW_reverse (s t : List Char) : levDP s t = levW s.reverse t.reverse := by
  have h0 : List.range (t.length + 1) = rowSpec [] [] t := by
    rw [rowSpec_nil_eq_range' t []]
    simp [List.range_eq_range']
  have h1 := levRows_spec t s []
  have h2 := rowSpec_getLastD (s.reverse ++ []) t [] 0
  rw [levDP, h0]
  simp only [List.length_nil] at h1
  rw [h1, h2, List.append_nil, List.append_nil]

/-- The source's matrix computation agrees with the textbook edit distance. -/
theorem levDP_eq_levW (s t : List Char) : levDP s t = levW s t := by
  rw [levDP_eq_levW_reverse, levW_reverse]

/-! ## Checked variants

The JS matrix code reads `matrix[i-1][j]`, `matrix[i][j-1]`,
`matrix[i-1][j-1]` and finally `matrix[len1][len2]`; an out-of-range read
would yield `undefined` and poison the result.  The checked variants below
return `none` whenever a row is shorter than the scan requires, so proving
them equal to `some` of the unchecked result shows no such read occurs. -/

def levRowAuxC (x : Char) : List Char → List Nat → Nat → Nat → Option (List Nat)
  | [], _, _, _ => some []
  | _ :: _, [], _, _ => none
  | y :: ys, up :: prevRest, diag, left =>
      (levRowAuxC x ys prevRest up (cell x y diag left up)).map (cell x y diag left up :: ·)

def levRowC (x : Char) (t : List Char) (prev : List Nat) (i : Nat) : Option (List Nat) :=
  match prev with
  | [] => none
  | d :: rest => (levRowAuxC x t rest d i).map (i :: ·)

def levRowsC (t : List Char) : List Char → List Nat → Nat → Option (List Nat)
  | [], row, _ => some row
  | x :: xs, row, i => (levRowC x t row (i + 1)).bind fun r => levRowsC t xs r (i + 1)

def levDPC (s t : List Char) : Option Nat :=
  (levRowsC t s (List.range (t.length + 1)) 0).bind List.getLast?

theorem levRowAuxC_eq (x : Char) :
    ∀ (t' : List Char) (prev : List Nat) (diag left : Nat), t'.length ≤ prev.length →
      levRowAuxC x t' prev diag left = some (levRowAux x t' prev diag left) ∧
        (levRowAux x t' prev diag left).length = t'.length := by
  intro t'
  induction t' with
  | nil => intro prev diag left _; simp [levRowAuxC, levRowAux]
  | cons y ys ih =>
    intro prev diag left h
    cases prev with
    | nil => simp at h
    | cons up rest =>
      simp only [List.length_cons, Nat.add_le_add_iff_right] at h
      have := ih rest up (cell x y diag left up) h
      simp [levRowAuxC, levRowAux, this.1, this.2]

theorem levRowC_eq (x : Char) (t : List Char) (prev : List Nat) (i : Nat)
    (h : prev.length = t.length + 1) :
    levRowC x t prev i = some (levRow x t prev i) ∧
      (levRow x t prev i).length = t.length + 1 := by
  cases prev with
  | nil => simp at h
  | cons d rest =>
    simp only [List.length_cons, Nat.add_right_cancel_iff] at h
    have := levRowAuxC_eq x t rest d i (le_of_eq h.symm)
    simp [levRowC, levRow, this.1, this.2]

theorem levRowsC_eq (t : List Char) :
    ∀ (s' : List Char) (row : List Nat) (i : Nat), row.length = t.length + 1 →
      levRowsC t s' row i = some (levRows t s' row i) ∧
        (levRows t s' row i).length = t.length + 1 := by
  intro s'
  induction s' with
  | nil => intro row i h; simpa [levRowsC, levRows] using h
  | cons x xs ih =>
    intro row i h
    have hrow := levRowC_eq x t row (i + 1) h
    have := ih (levRow x t row (i + 1)) (i + 1) hrow.2
    simp [levRowsC, levRows, hrow.1, this.1, this.2]

theorem getLast?_of_ne_nil (l : List Nat) (h : l ≠ []) : l.getLast? = some (l.getLastD 0) := by
  rw [List.getLastD_eq_getLast?, List.getLast?_eq_getLast l h]
  simp

/-- The checked matrix computation never goes out of range. -/
theorem levDPC_eq (s t : List Char) : levDPC s t = some (levDP s t) := by
  have h0 : (List.range (t.length + 1)).length = t.length + 1 := List.length_range _
  have h := levRowsC_eq t s (List.range (t.length + 1)) 0 h0
  have hne : levRows t s (List.range (t.length + 1)) 0 ≠ [] := by
    intro hnil
    rw [hnil] at h
    simp at h
  rw [levDPC, h.1, Option.some_bind, getLast?_of_ne_nil _ hne, levDP]

/-! ## EditDistanceScorer: `calculateSimilarity` -/

/-- `Math.round(q)` for the nonnegative rationals arising here: round half
up, i.e. `⌊q + 1/2⌋`.  (JS computes `(1 - d/L) * 100` in binary64; the
embedding uses exact rational arithmetic.) -/
def jsRound (q : ℚ) : ℤ := ⌊q + 1 / 2⌋

/-- `Math.round((1 - d / L) * 100)` in exact integer arithmetic: for
`d ≤ L`, `0 < L` this equals `jsRound ((1 - d/L) * 100)` (proved below). -/
def simScore (d L : Nat) : ℤ := ((200 * (L - d) + L) / (2 * L) : ℕ)

theorem simScore_eq_jsRound (d L : Nat) (hd : d ≤ L) (hL : 0 < L) :
    simScore d L = jsRound ((1 - (d : ℚ) / (L : ℚ)) * 100) := by
  have hL' : (L : ℚ) ≠ 0 := by positivity
  have key : ((1 : ℚ) - (d : ℚ) / (L : ℚ)) * 100 + 1 / 2 =
      ((200 * (L - d) + L : ℕ) : ℚ) / ((2 * L : ℕ) : ℚ) := by
    field_simp
    ring
  rw [jsRound, key, Rat.floor_natCast_div_natCast, simScore]
  exact (Int.natCast_div _ _).symm

/-- `calculateSimilarity` from the source.  The final return statement
`Math.round((1 - distance / maxLen) * 100)` is `simScore distance maxLen`. -/
def calculateSimilarity (str1 str2 : List Char) : ℤ :=
  if str1.length = 0 then (if str2.length = 0 then 100 else 0)
  else if str2.length = 0 then 0
  else simScore (levDP str1 str2) (max str1.length str2.length)

/-- `calculateSimilarity` with the checked matrix computation. -/
def calculateSimilarityChecked (str1 str2 : List Char) : Option ℤ :=
  if str1.length = 0 then some (if str2.length = 0 then 100 else 0)
  else if str2.length = 0 then some 0
  else (levDPC str1 str2).map fun d => simScore d (max str1.length str2.length)

/-- The similarity contract as the spec words it (§4.2 of the spec): both
empty → 100, exactly one empty → 0, otherwise
`round((1 - d / L) * 100)` where `d` is the textbook edit distance and
`L = max(len(a), len(b))`. -/
def specSimilarity (a b : List Char) : ℤ :=
  if a.length = 0 ∧ b.length = 0 then 100
  else if a.length = 0 ∨ b.length = 0 then 0
  else jsRound ((1 - (levW a b : ℚ) / ((max a.length b.length : ℕ) : ℚ)) * 100)

theorem calculateSimilarity_eq_spec (a b : List Char) :
    calculateSimilarity a b = specSimilarity a b := by
  unfold calculateSimilarity specSimilarity
  rcases Nat.eq_zero_or_pos a.length with ha | ha
  · rcases Nat.eq_zero_or_pos b.length with hb | hb
    · simp [ha, hb]
    · simp [ha, Nat.pos_iff_ne_zero.mp hb]
  · rcases Nat.eq_zero_or_pos b.length with hb | hb
    · simp [hb, Nat.pos_iff_ne_zero.mp ha]
    · have ha' := Nat.pos_iff_ne_zero.mp ha
      have hb' := Nat.pos_iff_ne_zero.mp hb
      simp only [ha', hb', if_false, false_and, false_or, if_neg, reduceIte]
      rw [levDP_eq_levW]
      exact simScore_eq_jsRound _ _ (levW_le_max a b) (by omega)

theorem simScore_nonneg (d L : Nat) : 0 ≤ simScore d L := Int.ofNat_nonneg _

theorem simScore_le_100 (d L : Nat) (hL : 0 < L) : simScore d L ≤ 100 := by
  unfold simScore
  have h : (200 * (L - d) + L) / (2 * L) ≤ 100 := by
    have hlt : 200 * (L - d) + L < 101 * (2 * L) := by omega
    have := (Nat.div_lt_iff_lt_mul (by omega : 0 < 2 * L)).mpr hlt
    omega
  exact_mod_cast h

/-- The similarity is always an integer in `[0, 100]`. -/
theorem calculateSimilarity_range (a b : List Char) :
    0 ≤ calculateSimilarity a b ∧ calculateSimilarity a b ≤ 100 := by
  unfold calculateSimilarity
  split_ifs with h1 h2 h3
  · omega
  · omega
  · omega
  · exact ⟨simScore_nonneg _ _, simScore_le_100 _ _ (by omega)⟩

/-- The similarity is symmetric. -/
theorem calculateSimilarity_comm (a b : List Char) :
    calculateSimilarity a b = calculateSimilarity b a := by
  unfold calculateSimilarity
  rw [levDP_eq_levW, levDP_eq_levW, levW_comm, Nat.max_comm]
  split_ifs <;> omega

theorem calculateSimilarityChecked_eq (a b : List Char) :
    calculateSimilarityChecked a b = some (calculateSimilarity a b) := by
  unfold calculateSimilarityChecked calculateSimilarity
  split_ifs <;> simp [levDPC_eq]

/-! ## MatchClassifier: `calculateMatch` -/

/-- The feedback tiers of `VoicePracticeResult.feedback`.  (`partial` is a
Lean keyword, so that tier is named `partialMatch` here.) -/
inductive Tier where
  | perfect
  | excellent
  | good
  | close
  | partialMatch
  | tryagain
  | different
deriving DecidableEq, Repr

/-- `VoicePracticeResult`: score, feedback tier and the (raw) transcript. -/
structure MatchResult where
  score : ℤ
  feedback : Tier
  transcript : List Char
deriving DecidableEq, Repr

/-- `haystack.includes(needle)` for JS strings: contiguous-substring test. -/
def isSubstring (pat l : List Char) : Bool :=
  l.tails.any fun t => pat.isPrefixOf t

theorem isSubstring_iff (pat l : List Char) : isSubstring pat l = true ↔ pat <:+: l := by
  rw [isSubstring, List.infix_iff_prefix_suffix, List.any_eq_true]
  constructor
  · rintro ⟨t, ht, hp⟩
    exact ⟨t, List.isPrefixOf_iff_prefix.mp hp, (List.mem_tails t l).mp ht⟩
  · rintro ⟨t, hp, hs⟩
    exact ⟨t, (List.mem_tails t l).mpr hs, List.isPrefixOf_iff_prefix.mpr hp⟩

/-- `calculateMatch` from the source, rule for rule. -/
def calculateMatch (target spoken : List Char) (alternatives : List (List Char)) : MatchResult :=
  let normalizedTarget := normalizeString target
  let normalizedSpoken := normalizeString spoken
  if normalizedTarget = normalizedSpoken then
    ⟨100, Tier.perfect, spoken⟩
  else if alternatives.any (fun alt => normalizeString alt == normalizedTarget) then
    ⟨95, Tier.excellent, spoken⟩
  else
    let similarity := calculateSimilarity normalizedTarget normalizedSpoken
    if isSubstring normalizedTarget normalizedSpoken then
      ⟨max similarity 85, Tier.good, spoken⟩
    else if isSubstring normalizedSpoken normalizedTarget ∧ 2 < normalizedSpoken.length then
      ⟨max similarity 70, Tier.partialMatch, spoken⟩
    else if 80 ≤ similarity then ⟨similarity, Tier.good, spoken⟩
    else if 60 ≤ similarity then ⟨similarity, Tier.close, spoken⟩
    else if 40 ≤ similarity then ⟨similarity, Tier.tryagain, spoken⟩
    else ⟨similarity, Tier.different, spoken⟩

/-- `calculateMatch` with the checked similarity computation: `none` would
signal an out-of-range matrix read inside `calculateSimilarity`. -/
def calculateMatchChecked (target spoken : List Char) (alternatives : List (List Char)) :
    Option MatchResult :=
  let normalizedTarget := normalizeString target
  let normalizedSpoken := normalizeString spoken
  if normalizedTarget = normalizedSpoken then
    some ⟨100, Tier.perfect, spoken⟩
  else if alternatives.any (fun alt => normalizeString alt == normalizedTarget) then
    some ⟨95, Tier.excellent, spoken⟩
  else
    (calculateSimilarityChecked normalizedTarget normalizedSpoken).map fun similarity =>
      if isSubstring normalizedTarget normalizedSpoken then
        ⟨max similarity 85, Tier.good, spoken⟩
      else if isSubstring normalizedSpoken normalizedTarget ∧ 2 < normalizedSpoken.length then
        ⟨max similarity 70, Tier.partialMatch, spoken⟩
      else if 80 ≤ similarity then ⟨similarity, Tier.good, spoken⟩
      else if 60 ≤ similarity then ⟨similarity, Tier.close, spoken⟩
      else if 40 ≤ similarity then ⟨similarity, Tier.tryagain, spoken⟩
      else ⟨similarity, Tier.different, spoken⟩

/-- The classifier as the spec words its ordered rule set (§4.3): rule 1
exact match, rule 2 alternatives, rules 4/5 containment, rule 6 thresholds. -/
def specClassify (target spokenPrimary : List Char) (alternatives : List (List Char)) :
    MatchResult :=
  let nt := normalizeString target
  let ns := normalizeString spokenPrimary
  if ns = nt then ⟨100, Tier.perfect, spokenPrimary⟩
  else if ∃ alt ∈ alternatives, normalizeString alt = nt then ⟨95, Tier.excellent, spokenPrimary⟩
  else
    let similarity := specSimilarity nt ns
    if nt <:+: ns then ⟨max similarity 85, Tier.good, spokenPrimary⟩
    else if ns <:+: nt ∧ 2 < ns.length then ⟨max similarity 70, Tier.partialMatch, spokenPrimary⟩
    else if 80 ≤ similarity then ⟨similarity, Tier.good, spokenPrimary⟩
    else if 60 ≤ similarity then ⟨similarity, Tier.close, spokenPrimary⟩
    else if 40 ≤ similarity then ⟨similarity, Tier.tryagain, spokenPrimary⟩
    else ⟨similarity, Tier.different, spokenPrimary⟩

theorem calculateMatch_eq_specClassify (target spoken : List Char)
    (alternatives : List (List Char)) :
    calculateMatch target spoken alternatives = specClassify target spoken alternatives := by
  unfold calculateMatch specClassify
  simp only [List.any_eq_true, beq_iff_eq, calculateSimilarity_eq_spec]
  by_cases h1 : normalizeString target = normalizeString spoken
  · have h1' : normalizeString spoken = normalizeString target := h1.symm
    rw [if_pos h1, if_pos h1']
  · have h1' : ¬normalizeString spoken = normalizeString target := fun h => h1 h.symm
    rw [if_neg h1, if_neg h1']
    by_cases h2 : ∃ alt ∈ alternatives, normalizeString alt = normalizeString target
    · rw [if_pos h2, if_pos h2]
    · rw [if_neg h2, if_neg h2]
      by_cases h3 : normalizeString target <:+: normalizeString spoken
      · have h3' : isSubstring (normalizeString target) (normalizeString spoken) = true :=
          (isSubstring_iff _ _).mpr h3
        rw [if_pos h3', if_pos h3]
      · have h3' : ¬isSubstring (normalizeString target) (normalizeString spoken) = true :=
          fun hb => h3 ((isSubstring_iff _ _).mp hb)
        rw [if_neg h3', if_neg h3]
        by_cases h4 : normalizeString spoken <:+: normalizeString target ∧
            2 < (normalizeString spoken).length
        · have h4' : isSubstring (normalizeString spoken) (normalizeString target) = true ∧
              2 < (normalizeString spoken).length := ⟨(isSubstring_iff _ _).mpr h4.1, h4.2⟩
          rw [if_pos h4', if_pos h4]
        · have h4' : ¬(isSubstring (normalizeString spoken) (normalizeString target) = true ∧
              2 < (normalizeString spoken).length) :=
            fun hb => h4 ⟨(isSubstring_iff _ _).mp hb.1, hb.2⟩
          rw [if_neg h4', if_neg h4]

theorem calculateMatchChecked_eq (target spoken : List Char)
    (alternatives : List (List Char)) :
    calculateMatchChecked target spoken alternatives =
      some (calculateMatch target spoken alternatives) := by
  unfold calculateMatchChecked calculateMatch
  by_cases h1 : normalizeString target = normalizeString spoken
  · rw [if_pos h1, if_pos h1]
  · rw [if_neg h1, if_neg h1]
    by_cases h2 : (alternatives.any fun alt => normalizeString alt == normalizeString target) = true
    · rw [if_pos h2, if_pos h2]
    · rw [if_neg h2, if_neg h2, calculateSimilarityChecked_eq, Option.map_some']

/-! ## StringNormalizer: properties -/

/-- No two adjacent whitespace characters. -/
def notBothWs (a b : Char) : Prop := ¬(isWs a = true ∧ isWs b = true)

theorem isWs_space : isWs ' ' = true := by decide

theorem notBothWs_symm {a b : Char} (h : notBothWs a b) : notBothWs b a :=
  fun hab => h ⟨hab.2, hab.1⟩

theorem mem_collapseWs :
    ∀ (l : List Char) (c : Char), c ∈ collapseWs l → c = ' ' ∨ (isWs c = false ∧ c ∈ l) := by
  intro l
  induction l with
  | nil => intro c h; simp [collapseWs] at h
  | cons c0 rest ih =>
    intro c h
    cases rest with
    | nil =>
      by_cases hw : isWs c0 = true
      · simp [collapseWs, hw] at h
        exact Or.inl h
      · simp [collapseWs, hw] at h
        subst h
        exact Or.inr ⟨Bool.not_eq_true _ ▸ hw, by simp⟩
    | cons d cs =>
      by_cases hw : isWs c0 = true
      · by_cases hd : isWs d = true
        · rw [collapseWs, if_pos hw, if_pos hd] at h
          exact (ih c h).imp_right (And.imp_right (List.mem_cons_of_mem c0))
        · rw [collapseWs, if_pos hw, if_neg hd] at h
          rcases List.mem_cons.mp h with h | h
          · exact Or.inl h
          · exact (ih c h).imp_right (And.imp_right (List.mem_cons_of_mem c0))
      · rw [collapseWs, if_neg hw] at h
        rcases List.mem_cons.mp h with h | h
        · subst h
          exact Or.inr ⟨Bool.not_eq_true _ ▸ hw, by simp⟩
        · exact (ih c h).imp_right (And.imp_right (List.mem_cons_of_mem c0))

theorem collapseWs_head :
    ∀ (cs : List Char) (d : Char),
      ∃ r, collapseWs (d :: cs) = (if isWs d = true then ' ' else d) :: r := by
  intro cs
  induction cs with
  | nil =>
    intro d
    by_cases h : isWs d = true <;> simp [collapseWs, h]
  | cons e cs' ih =>
    intro d
    by_cases hd : isWs d = true
    · by_cases he : isWs e = true
      · obtain ⟨r, hr⟩ := ih e
        refine ⟨r, ?_⟩
        rw [collapseWs, if_pos hd, if_pos he, hr, if_pos he, if_pos hd]
      · exact ⟨collapseWs (e :: cs'), by rw [collapseWs, if_pos hd, if_neg he, if_pos hd]⟩
    · exact ⟨collapseWs (e :: cs'), by rw [collapseWs, if_neg hd, if_neg hd]⟩

theorem chain_collapseWs : ∀ l : List Char, List.Chain' notBothWs (collapseWs l) := by
  intro l
  induction l with
  | nil => simp [collapseWs]
  | cons c0 rest ih =>
    cases rest with
    | nil =>
      by_cases hw : isWs c0 = true <;> simp [collapseWs, hw]
    | cons d cs =>
      by_cases hw : isWs c0 = true
      · by_cases hd : isWs d = true
        · rw [collapseWs, if_pos hw, if_pos hd]
          exact ih
        · rw [collapseWs, if_pos hw, if_neg hd]
          obtain ⟨r, hr⟩ := collapseWs_head cs d
          rw [if_neg hd] at hr
          rw [hr] at ih ⊢
          exact List.chain'_cons.mpr ⟨fun hc => hd hc.2, ih⟩
      · rw [collapseWs, if_neg hw]
        obtain ⟨r, hr⟩ := collapseWs_head cs d
        rw [hr] at ih ⊢
        exact List.chain'_cons.mpr ⟨fun hc => hw hc.1, ih⟩

theorem collapseWs_id :
    ∀ l : List Char, (∀ c ∈ l, isWs c = true → c = ' ') → List.Chain' notBothWs l →
      collapseWs l = l := by
  intro l
  induction l with
  | nil => intro _ _; rfl
  | cons c0 rest ih =>
    intro hws hch
    cases rest with
    | nil =>
      by_cases hw : isWs c0 = true
      · rw [collapseWs, if_pos hw, hws c0 (by simp) hw]
      · rw [collapseWs, if_neg hw]
    | cons d cs =>
      have hrel : notBothWs c0 d := (List.chain'_cons.mp hch).1
      have hch' : List.Chain' notBothWs (d :: cs) := (List.chain'_cons.mp hch).2
      have hws' : ∀ c ∈ d :: cs, isWs c = true → c = ' ' :=
        fun c hc => hws c (List.mem_cons_of_mem c0 hc)
      by_cases hw : isWs c0 = true
      · have hd : ¬isWs d = true := fun hd => hrel ⟨hw, hd⟩
        rw [collapseWs, if_pos hw, if_neg hd, ih hws' hch', hws c0 (by simp) hw]
      · rw [collapseWs, if_neg hw, ih hws' hch']

theorem isWs_iff_mem (c : Char) : isWs c = true ↔ c.toNat ∈ wsCodes := by
  rw [isWs, List.contains, List.elem_iff]

theorem normOutChar_not_ws_range (c : Char) (h : isWs c = true) :
    ¬((97 ≤ c.toNat ∧ c.toNat ≤ 122) ∨ (48 ≤ c.toNat ∧ c.toNat ≤ 57)) := by
  have hm := (isWs_iff_mem c).mp h
  simp only [wsCodes, List.mem_cons, List.not_mem_nil, or_false] at hm
  omega

theorem mem_stripOther {c : Char} {l : List Char} (h : c ∈ stripOther l) :
    (isLowerAZ c || isDigit09 c || isWs c) = true ∧ c ∈ l := by
  have := List.mem_filter.mp h
  exact ⟨this.2, this.1⟩

/-- Every character of the normalized output is a lowercase ASCII letter,
a digit, or a space. -/
theorem normalizeString_mem (l : List Char) : ∀ c ∈ normalizeString l, normOutChar c := by
  intro c hc
  rcases mem_collapseWs _ c hc with h | ⟨hnw, hmem⟩
  · exact Or.inr (Or.inr h)
  · have hp := (mem_stripOther hmem).1
    rw [hnw] at hp
    simp only [isLowerAZ, isDigit09, Bool.or_false, Bool.or_eq_true, decide_eq_true_eq] at hp
    exact hp.imp_right Or.inl

/-- The normalized output never has two adjacent whitespace characters. -/
theorem normalizeString_chain (l : List Char) :
    List.Chain' notBothWs (normalizeString l) := chain_collapseWs _

/-- Every whitespace character of the normalized output is a plain space. -/
theorem normalizeString_ws_eq_space (l : List Char) :
    ∀ c ∈ normalizeString l, isWs c = true → c = ' ' := by
  intro c hc hw
  rcases normalizeString_mem l c hc with h | h | h
  · exact absurd (Or.inl h) (normOutChar_not_ws_range c hw)
  · exact absurd (Or.inr h) (normOutChar_not_ws_range c hw)
  · exact h

theorem chain'_dropWhile {R : Char → Char → Prop} (p : Char → Bool) :
    ∀ l : List Char, List.Chain' R l → List.Chain' R (l.dropWhile p) := by
  intro l
  induction l with
  | nil => intro h; exact h
  | cons a l ih =>
    intro h
    rw [List.dropWhile_cons]
    split
    · exact ih h.tail
    · exact h

theorem chain'_flip_of_symm {l : List Char} (h : List.Chain' notBothWs l) :
    List.Chain' (flip notBothWs) l :=
  h.imp fun _ _ hab => notBothWs_symm hab

theorem chain'_jsTrim {l : List Char} (h : List.Chain' notBothWs l) :
    List.Chain' notBothWs (jsTrim l) := by
  have h1 : List.Chain' notBothWs (l.dropWhile isWs) := chain'_dropWhile isWs l h
  have h2 : List.Chain' notBothWs (l.dropWhile isWs).reverse :=
    List.chain'_reverse.mpr (chain'_flip_of_symm h1)
  have h3 : List.Chain' notBothWs ((l.dropWhile isWs).reverse.dropWhile isWs) :=
    chain'_dropWhile isWs _ h2
  exact List.chain'_reverse.mpr (chain'_flip_of_symm h3)

theorem mem_jsTrim {c : Char} {l : List Char} (h : c ∈ jsTrim l) : c ∈ l := by
  rw [jsTrim, List.mem_reverse] at h
  have h1 := (List.dropWhile_suffix isWs).subset h
  rw [List.mem_reverse] at h1
  exact (List.dropWhile_suffix isWs).subset h1

theorem jsLowerChar_eq_self (c : Char) (h : normOutChar c) : jsLowerChar c = c := by
  have hcond : ¬(65 ≤ c.toNat ∧ c.toNat ≤ 90) := by
    rcases h with h | h | h
    · omega
    · omega
    · subst h; decide
  rw [jsLowerChar, if_neg hcond]

theorem map_id_of_mem {f : Char → Char} :
    ∀ l : List Char, (∀ c ∈ l, f c = c) → l.map f = l := by
  intro l
  induction l with
  | nil => intro _; rfl
  | cons a l ih =>
    intro h
    rw [List.map_cons, h a (by simp), ih fun c hc => h c (List.mem_cons_of_mem a hc)]

theorem normOutChar_keep (c : Char) (h : normOutChar c) :
    (isLowerAZ c || isDigit09 c || isWs c) = true := by
  rcases h with h | h | h
  · simp [isLowerAZ, h]
  · simp [isDigit09, h]
  · subst h; decide

/-- A second application of `normalizeString` only trims the single leading
or trailing space that the first application can leave behind (from
whitespace that survived `trim` by being shielded by a stripped character). -/
theorem normalizeString_normalizeString (l : List Char) :
    normalizeString (normalizeString l) = jsTrim (normalizeString l) := by
  have hchars := normalizeString_mem l
  have hlower : jsToLower (normalizeString l) = normalizeString l :=
    map_id_of_mem _ fun c hc => jsLowerChar_eq_self c (hchars c hc)
  have htchars : ∀ c ∈ jsTrim (normalizeString l), normOutChar c :=
    fun c hc => hchars c (mem_jsTrim hc)
  have hstrip : stripOther (jsTrim (normalizeString l)) = jsTrim (normalizeString l) :=
    List.filter_eq_self.mpr fun c hc => normOutChar_keep c (htchars c hc)
  have htws : ∀ c ∈ jsTrim (normalizeString l), isWs c = true → c = ' ' := by
    intro c hc hw
    rcases htchars c hc with h | h | h
    · exact absurd (Or.inl h) (normOutChar_not_ws_range c hw)
    · exact absurd (Or.inr h) (normOutChar_not_ws_range c hw)
    · exact h
  have htchain : List.Chain' notBothWs (jsTrim (normalizeString l)) :=
    chain'_jsTrim (normalizeString_chain l)
  calc normalizeString (normalizeString l)
      = collapseWs (stripOther (jsTrim (jsToLower (normalizeString l)))) := rfl
    _ = collapseWs (stripOther (jsTrim (normalizeString l))) := by rw [hlower]
    _ = collapseWs (jsTrim (normalizeString l)) := by rw [hstrip]
    _ = jsTrim (normalizeString l) := collapseWs_id _ htws htchain

/-! ## SpacedRepetitionScheduler

The hook implementing the progress engine is not among the given source
files (only its caller `VocabularyReview` is), so the definitions in this
section are modelled from the spec, §4.4. -/

/-- Modelled from the spec: `InvalidRating` is the only explicit failure of
the core (spec §7). -/
inductive ReviewError where
  | invalidRating
deriving DecidableEq, Repr

/-- Modelled from the spec: one `CardProgress` record per card — mastery
`level` in `0..5`, optional `lastReviewedAt` and `dueAt` timestamps. -/
structure CardProgress where
  cardId : Nat
  level : Nat
  lastReviewedAt : Option ℤ
  dueAt : Option ℤ
deriving DecidableEq, Repr

/-- Modelled from the spec: the fixed base-interval table of §4.4
(level 0 → due immediately, then 1/3/7/14/30 days). -/
def intervalDays : Nat → Nat
  | 0 => 0
  | 1 => 1
  | 2 => 3
  | 3 => 7
  | 4 => 14
  | _ => 30

/-- Modelled from the spec: `recordReview(progress, rating, now)` — fails
with `InvalidRating` when `rating` is outside `1..5`; otherwise promotes
(`min(level+1, 5)`) on `rating ≥ 3` and demotes (`max(level-1, 0)`, which
for `ℕ` is truncated subtraction) on `rating < 3`, stamps
`lastReviewedAt = now` and `dueAt = now + interval(level')`. -/
def recordReview (p : CardProgress) (rating : Nat) (now : ℤ) :
    Except ReviewError CardProgress :=
  if rating < 1 ∨ 5 < rating then Except.error ReviewError.invalidRating
  else
    let newLevel := if 3 ≤ rating then min (p.level + 1) 5 else p.level - 1
    Except.ok { p with
      level := newLevel
      lastReviewedAt := some now
      dueAt := some (now + intervalDays newLevel) }

/-! ## The claims -/

/-- C1: for every target, spokenPrimary and list of alternatives,
`calculateMatch` returns exactly the result of the spec's ordered rule set
(1 exact match → 100/perfect, 2 alternative match → 95/excellent,
4 spoken-contains-target → max(sim,85)/good, 5 target-contains-spoken with
length > 2 → max(sim,70)/partial, 6 thresholds 80/60/40 on the similarity),
earlier rules taking priority. -/
theorem claim_C1_match_follows_ordered_rules (target spokenPrimary : List Char)
    (alternatives : List (List Char)) :
    calculateMatch target spokenPrimary alternatives =
      specClassify target spokenPrimary alternatives :=
  calculateMatch_eq_specClassify target spokenPrimary alternatives

/-- C2 (counterexample): normalization is not idempotent.  On `"a ."` the
first pass leaves a trailing space (the whitespace was shielded from `trim`
by the later-stripped `'.'`), and a second pass removes it. -/
theorem claim_C2_counterexample :
    normalizeString (normalizeString ("a .".toList)) ≠ normalizeString ("a .".toList) := by
  decide

/-- C2 (amended): a second application of `normalizeString` equals a `trim`
of the first application's output — so normalization is idempotent exactly
on inputs whose normalized form has no leading or trailing space. -/
theorem claim_C2_amended_normalize_normalize_eq_trim_normalize (s : List Char) :
    normalizeString (normalizeString s) = jsTrim (normalizeString s) :=
  normalizeString_normalizeString s

/-- C3: `calculateSimilarity` returns 100 when both strings are empty, 0
when exactly one is, and otherwise `round((1 - d/L) * 100)` where `d` is
the insert/delete/substitute edit distance and `L` the larger length
(this is `specSimilarity`); the result is always an integer in `[0, 100]`. -/
theorem claim_C3_similarity_formula_and_range (a b : List Char) :
    calculateSimilarity a b = specSimilarity a b ∧
      0 ≤ calculateSimilarity a b ∧ calculateSimilarity a b ≤ 100 :=
  ⟨calculateSimilarity_eq_spec a b, (calculateSimilarity_range a b).1,
    (calculateSimilarity_range a b).2⟩

/-- C4: `calculateSimilarity` is symmetric. -/
theorem claim_C4_similarity_symmetric (a b : List Char) :
    calculateSimilarity a b = calculateSimilarity b a :=
  calculateSimilarity_comm a b

/-- C5: classification is total and deterministic — the checked evaluation,
in which any out-of-range matrix read inside the similarity computation
would produce `none`, always returns `some` of the unique
`calculateMatch` result, for every input including empty strings. -/
theorem claim_C5_match_total_deterministic (target spokenPrimary : List Char)
    (alternatives : List (List Char)) :
    calculateMatchChecked target spokenPrimary alternatives =
      some (calculateMatch target spokenPrimary alternatives) :=
  calculateMatchChecked_eq target spokenPrimary alternatives

set_option maxRecDepth 8000 in
/-- C6: classifying target "good morning" against spoken "good afternoon"
with no alternatives: the DP distance is 7, `L = 14`, so the similarity is
50 — well below 80 — and the tier is `tryagain` with score 50. -/
theorem claim_C6_good_morning_vs_good_afternoon :
    calculateMatch ("good morning".toList) ("good afternoon".toList) [] =
        ⟨50, Tier.tryagain, "good afternoon".toList⟩ ∧
      calculateSimilarity (normalizeString ("good morning".toList))
        (normalizeString ("good afternoon".toList)) = 50 ∧
      (50 : ℤ) < 80 := by
  decide

/-- C7: for `level ≤ 5` and `rating ∈ 1..5`, `recordReview` succeeds with
`level' = min(level+1, 5)` when `rating ≥ 3` and `level' = max(level-1, 0)`
when `rating < 3` (over `ℕ` the demotion is truncated subtraction, and the
`ℤ` form of the `max` is proved as well), so `level'` stays in `[0, 5]`. -/
theorem claim_C7_review_level_transition (p : CardProgress) (rating : Nat) (now : ℤ)
    (hl : p.level ≤ 5) (h1 : 1 ≤ rating) (h5 : rating ≤ 5) :
    recordReview p rating now =
      Except.ok { p with
        level := if 3 ≤ rating then min (p.level + 1) 5 else p.level - 1
        lastReviewedAt := some now
        dueAt := some (now +
          intervalDays (if 3 ≤ rating then min (p.level + 1) 5 else p.level - 1)) } ∧
    (if 3 ≤ rating then min (p.level + 1) 5 else p.level - 1) ≤ 5 ∧
    (rating < 3 →
      ((if 3 ≤ rating then min (p.level + 1) 5 else p.level - 1 : ℕ) : ℤ) =
        max ((p.level : ℤ) - 1) 0) := by
  have hcond : ¬(rating < 1 ∨ 5 < rating) := by omega
  refine ⟨?_, ?_, ?_⟩
  · rw [recordReview, if_neg hcond]
  · split <;> omega
  · intro h3
    rw [if_neg (by omega : ¬3 ≤ rating)]
    omega

/-- C7 witness: a concrete review at level 2 with rating 3 promotes to
level 3 and is due 7 days later. -/
theorem claim_C7_witness :
    recordReview ⟨1, 2, none, none⟩ 3 0 = Except.ok ⟨1, 3, some 0, some 7⟩ := by
  have h := claim_C7_review_level_transition ⟨1, 2, none, none⟩ 3 0
    (by decide) (by decide) (by decide)
  rw [h.1]
  rfl

/-- C8: `recordReview` fails if and only if the rating is outside `1..5`,
`InvalidRating` is the only failure of the core, and on an out-of-range
rating no updated progress record is produced. -/
theorem claim_C8_invalid_rating_iff (p : CardProgress) (rating : Nat) (now : ℤ) :
    (recordReview p rating now = Except.error ReviewError.invalidRating ↔
      rating < 1 ∨ 5 < rating) ∧
    (∀ e : ReviewError, e = ReviewError.invalidRating) ∧
    (∀ q : CardProgress, rating < 1 ∨ 5 < rating →
      recordReview p rating now ≠ Except.ok q) := by
  refine ⟨⟨?_, ?_⟩, ?_, ?_⟩
  · intro h
    by_contra hc
    rw [recordReview, if_neg hc] at h
    exact Except.noConfusion h
  · intro h
    rw [recordReview, if_pos h]
  · intro e
    cases e
    rfl
  · intro q h hok
    rw [recordReview, if_pos h] at hok
    exact Except.noConfusion hok

/-- C8 witness: rating 0 (and rating 6) raise `InvalidRating` and produce
no updated record. -/
theorem claim_C8_witness :
    recordReview ⟨0, 0, none, none⟩ 0 0 = Except.error ReviewError.invalidRating ∧
      recordReview ⟨0, 0, none, none⟩ 6 0 = Except.error ReviewError.invalidRating ∧
      recordReview ⟨0, 0, none, none⟩ 0 0 ≠ Except.ok ⟨0, 0, none, none⟩ :=
  ⟨(claim_C8_invalid_rating_iff ⟨0, 0, none, none⟩ 0 0).1.mpr (Or.inl (by decide)),
    (claim_C8_invalid_rating_iff ⟨0, 0, none, none⟩ 6 0).1.mpr (Or.inr (by decide)),
    (claim_C8_invalid_rating_iff ⟨0, 0, none, none⟩ 0 0).2.2 _ (Or.inl (by decide))⟩

/-- C9: the returned score is consistent with the returned tier:
perfect → 100, excellent → 95, good → ≥ 80, partial → ≥ 70,
close → 60..79, tryagain → 40..59, different → 0..39. -/
theorem claim_C9_score_tier_consistent (target spokenPrimary : List Char)
    (alternatives : List (List Char)) :
    ((calculateMatch target spokenPrimary alternatives).feedback = Tier.perfect →
      (calculateMatch target spokenPrimary alternatives).score = 100) ∧
    ((calculateMatch target spokenPrimary alternatives).feedback = Tier.excellent →
      (calculateMatch target spokenPrimary alternatives).score = 95) ∧
    ((calculateMatch target spokenPrimary alternatives).feedback = Tier.good →
      80 ≤ (calculateMatch target spokenPrimary alternatives).score) ∧
    ((calculateMatch target spokenPrimary alternatives).feedback = Tier.partialMatch →
      70 ≤ (calculateMatch target spokenPrimary alternatives).score) ∧
    ((calculateMatch target spokenPrimary alternatives).feedback = Tier.close →
      60 ≤ (calculateMatch target spokenPrimary alternatives).score ∧
        (calculateMatch target spokenPrimary alternatives).score ≤ 79) ∧
    ((calculateMatch target spokenPrimary alternatives).feedback = Tier.tryagain →
      40 ≤ (calculateMatch target spokenPrimary alternatives).score ∧
        (calculateMatch target spokenPrimary alternatives).score ≤ 59) ∧
    ((calculateMatch target spokenPrimary alternatives).feedback = Tier.different →
      0 ≤ (calculateMatch target spokenPrimary alternatives).score ∧
        (calculateMatch target spokenPrimary alternatives).score ≤ 39) := by
  have hr := calculateSimilarity_range (normalizeString target)
    (normalizeString spokenPrimary)
  simp only [calculateMatch]
  split_ifs <;>
    refine ⟨?_, ?_, ?_, ?_, ?_, ?_, ?_⟩ <;>
      simp_all <;> omega

/-- C9 witness: an exact match is tier `perfect` with score 100. -/
theorem claim_C9_witness :
    (calculateMatch ("g day".toList) ("g day".toList) []).score = 100 :=
  (claim_C9_score_tier_consistent ("g day".toList) ("g day".toList) []).1 (by decide)

/-- C10: every character of `normalizeString`'s output is a lowercase ASCII
letter, a digit, or a space, and the output never contains two adjacent
spaces. -/
theorem claim_C10_normalized_charset_no_adjacent_spaces (l : List Char) :
    (∀ c ∈ normalizeString l, normOutChar c) ∧
      List.Chain' (fun a b => ¬(a = ' ' ∧ b = ' ')) (normalizeString l) := by
  refine ⟨normalizeString_mem l, (normalizeString_chain l).imp ?_⟩
  intro a b hab hc
  exact hab ⟨by rw [hc.1]; exact isWs_space, by rw [hc.2]; exact isWs_space⟩

/-- C10 witness: `'g'` is in the normalized output of `"G'day!"` and is in
the allowed character set. -/
theorem claim_C10_witness : normOutChar 'g' :=
  (claim_C10_normalized_charset_no_adjacent_spaces ("G'day!".toList)).1 'g' (by decide)

end AussiePractice
